import Mathlib

/-!
Verification of the asynchronous scanning/aggregation engine of SSDTree
(`src/ssdtree.py`).

The development shallowly embeds the Python source into Lean:

* `DirectoryLoader.load_directory` (lines 47-101) becomes `load_directory` /
  `loadLoop` / `postLoop`: a pure function from the directory's scandir
  sequence and two oracles — the cancel flag's value at each mutex-guarded
  read (`intr`) and the parent-item weak reference's liveness at each
  dereference (`alive`) — to the list of Qt signal emissions the run performs.
* `FolderSizeWorker.process` / `get_folder_size` (lines 349-393) become
  `process` / `processGo` / `get_folder_size`, again indexed by a cancel-flag
  oracle; one oracle read is performed per immediate child and per `os.walk`
  step, exactly where the source takes the mutex.
* `SortableTreeWidgetItem.__lt__`'s sort-mode "size" branch (lines 132-143)
  becomes `sizeLt`.
* The interrupt flag discipline shared by both worker classes becomes the
  `FlagOp` machine.
* `MainWindow.start_folder_size_worker` / `on_worker_finished`
  (lines 693-723) become the `MainSt` state machine.
* `FileTreeWidget._load_directory_async` / `_cleanup_thread` and the
  per-node thread registry (lines 209-323) become the `TreeSt` state machine.

Python machine details that matter here: `list.sort` is a stable sort, so it
is modelled by `List.insertionSort` (stable, and kernel-reducible);
`str.lower()` / code-point string comparison are modelled on `List Char` via
`Char.toLower`; exceptions of fallible OS calls are modelled by per-entry
success flags carried in the entry records.
-/

namespace SSDTree

/-! ### Python string helpers

`str.lower()` followed by `<` / `<=` on the lowered strings, comparing by
code point, as Python's string comparison does. -/

/-- Code points of `s.lower()` for a Python string `s`. -/
def lowerChars (s : String) : List Char :=
  s.data.map Char.toLower

/-- Python `<=` on strings (lexicographic by code point), on char lists. -/
def lexLe : List Char → List Char → Bool
  | [], _ => true
  | _ :: _, [] => false
  | a :: as, b :: bs =>
    if a.toNat < b.toNat then true
    else if b.toNat < a.toNat then false
    else lexLe as bs

/-- Python `<` on strings (lexicographic by code point), on char lists. -/
def lexLt : List Char → List Char → Bool
  | [], [] => false
  | [], _ :: _ => true
  | _ :: _, [] => false
  | a :: as, b :: bs =>
    if a.toNat < b.toNat then true
    else if b.toNat < a.toNat then false
    else lexLt as bs

theorem lexLe_total : ∀ x y : List Char, lexLe x y = true ∨ lexLe y x = true := by
  intro x
  induction x with
  | nil => intro y; left; rfl
  | cons a as ih =>
    intro y
    cases y with
    | nil => right; rfl
    | cons b bs =>
      by_cases hab : a.toNat < b.toNat
      · left; simp [lexLe, hab]
      · by_cases hba : b.toNat < a.toNat
        · right; simp [lexLe, hab, hba, Nat.not_lt.mpr (Nat.le_of_lt hba)]
        · have := ih bs
          simp [lexLe, hab, hba]
          exact this

theorem lexLe_trans :
    ∀ x y z : List Char, lexLe x y = true → lexLe y z = true → lexLe x z = true := by
  intro x
  induction x with
  | nil => intro y z _ _; rfl
  | cons a as ih =>
    intro y z hxy hyz
    cases y with
    | nil => simp [lexLe] at hxy
    | cons b bs =>
      cases z with
      | nil => simp [lexLe] at hyz
      | cons c cs =>
        simp only [lexLe] at hxy hyz ⊢
        by_cases hab : a.toNat < b.toNat
        · by_cases hbc : b.toNat < c.toNat
          · simp [Nat.lt_trans hab hbc]
          · by_cases hcb : c.toNat < b.toNat
            · simp [lexLe, hbc, hcb] at hyz
            · have hbc' : b.toNat = c.toNat := Nat.le_antisymm (Nat.not_lt.mp hcb) (Nat.not_lt.mp hbc)
              simp [hbc' ▸ hab]
        · by_cases hba : b.toNat < a.toNat
          · simp [hab, hba] at hxy
          · have hba' : a.toNat = b.toNat := Nat.le_antisymm (Nat.not_lt.mp hba) (Nat.not_lt.mp hab)
            by_cases hbc : b.toNat < c.toNat
            · simp [hba' ▸ hbc]
            · by_cases hcb : c.toNat < b.toNat
              · simp [hbc, hcb] at hyz
              · simp [hab, hba] at hxy
                simp [hbc, hcb] at hyz
                have hac : ¬ a.toNat < c.toNat := by omega
                have hca : ¬ c.toNat < a.toNat := by omega
                simp [hac, hca]
                exact ih bs cs hxy hyz

/-! ### Entry Scanner data model (`os.scandir` results, ssdtree.py lines 60-81)

One record per entry yielded by `os.scandir(self.path)`.  The fallible OS
calls the loader makes on an entry are modelled by success flags:
`statOk` covers `entry.is_dir(follow_symlinks=False)` and
`entry.stat(follow_symlinks=False).st_size`; `ctimeOk` covers the second
`entry.stat(...)` call used for `st_ctime`.  `hasKids` is the result of
`_has_children(entry.path)`, which absorbs its own failures (returns
`False` on any exception, lines 103-109). -/

structure Entry where
  name : String
  isDir : Bool
  fsize : Nat
  epath : String
  ctime : Int
  hasKids : Bool
  statOk : Bool
  ctimeOk : Bool
deriving DecidableEq, Repr

/-- The tuple appended to `batch` (line 76):
`(entry.name, size, entry.is_dir(...), entry.path, ctime, has_children)`. -/
structure LoadedEntry where
  name : String
  size : Nat
  isDir : Bool
  epath : String
  ctime : Int
  hasKids : Bool
deriving DecidableEq, Repr

/-- Building the batch tuple from a scandir entry (lines 68-77): directories
get `size = 0` and the `_has_children` probe, files get their `st_size` and
`has_children = False`. -/
def mkLoaded (e : Entry) : LoadedEntry :=
  { name := e.name
    size := if e.isDir then 0 else e.fsize
    isDir := e.isDir
    epath := e.epath
    ctime := e.ctime
    hasKids := if e.isDir then e.hasKids else false }

/-- First component of the Python sort key `(not x[2], x[0].lower())`
(line 85): `False` (rank 0) for directories, `True` (rank 1) for files. -/
def dirRank (e : LoadedEntry) : Nat :=
  if e.isDir then 0 else 1

/-- The total preorder induced by the Python sort key
`(not is_dir, name.lower())` under tuple comparison: directories before
files, then case-insensitive name. -/
def keyLe (a b : LoadedEntry) : Prop :=
  dirRank a < dirRank b ∨
    (dirRank a = dirRank b ∧ lexLe (lowerChars a.name) (lowerChars b.name) = true)

instance : DecidableRel keyLe := fun a b => by
  unfold keyLe; infer_instance

instance : IsTotal LoadedEntry keyLe := by
  constructor
  intro a b
  rcases Nat.lt_trichotomy (dirRank a) (dirRank b) with h | h | h
  · exact Or.inl (Or.inl h)
  · rcases lexLe_total (lowerChars a.name) (lowerChars b.name) with hl | hl
    · exact Or.inl (Or.inr ⟨h, hl⟩)
    · exact Or.inr (Or.inr ⟨h.symm, hl⟩)
  · exact Or.inr (Or.inl h)

instance : IsTrans LoadedEntry keyLe := by
  constructor
  intro a b c hab hbc
  rcases hab with h1 | ⟨h1, l1⟩ <;> rcases hbc with h2 | ⟨h2, l2⟩
  · exact Or.inl (Nat.lt_trans h1 h2)
  · exact Or.inl (h2 ▸ h1)
  · exact Or.inl (h1 ▸ h2)
  · exact Or.inr ⟨h1.trans h2, lexLe_trans _ _ _ l1 l2⟩

/-- `batch.sort(key=lambda x: (not x[2], x[0].lower()))` (lines 85 and 91).
Python's `list.sort` is a stable comparison sort; `List.insertionSort` is a
stable sort over the same total preorder. -/
def sortBatch (l : List LoadedEntry) : List LoadedEntry :=
  List.insertionSort keyLe l

/-! ### Directory Loader emissions and run model (ssdtree.py lines 47-114) -/

/-- One Qt signal emission of a `DirectoryLoader` run: `items_loaded`
(a batch), `finished`, or `error`. -/
inductive Emission where
  | batch (items : List LoadedEntry)
  | finished
  | error (msg : String)
deriving DecidableEq, Repr

/-- Configuration and environment oracles of one `load_directory` run.

`intr k` is the value of `self._is_interrupted` at the `k`-th mutex-guarded
read the run performs (read 0 is the check before the path test, lines
51-54; then one read at the top of each loop iteration, lines 62-65; the
last read guards the `finished` emission, lines 93-94).

`alive k` tells whether `self.parent_item_ref()` returns a live item at the
`k`-th dereference (one per reached batch boundary, line 83; one for the
remaining batch, line 89; one before `finished`, line 95).

`scanFailAfter = some k` means the `os.scandir` iteration raises when asked
for the `(k+1)`-st entry (so after `k` entries were yielded); `none` means
the scan runs to exhaustion.  `scanExcMsg` is `str(e)` of that exception. -/
structure LoadCfg where
  path : String
  batch_size : Nat
  max_items : Nat
  intr : Nat → Bool
  alive : Nat → Bool
  scanFailAfter : Option Nat
  scanExcMsg : String

/-- The message of the line-56 `error` emission. -/
def pathErrMsg (cfg : LoadCfg) : String :=
  "Path does not exist or is not a directory: " ++ cfg.path

/-- The message of the line-101 `error` emission. -/
def scanErrMsg (cfg : LoadCfg) : String :=
  "Error loading directory " ++ cfg.path ++ ": " ++ cfg.scanExcMsg

/-- Code after the scan loop (lines 88-97): emit the remaining batch if the
parent item is still alive, then emit `finished` unless the flag was set,
again only if the parent item is still alive.  `rc`/`dc` are the number of
flag reads / weakref dereferences performed so far. -/
def postLoop (cfg : LoadCfg) (batch : List LoadedEntry) (rc dc : Nat) : List Emission :=
  (if batch.isEmpty then [] else if cfg.alive dc then [Emission.batch (sortBatch batch)] else [])
    ++ (if cfg.intr rc then []
        else if cfg.alive (if batch.isEmpty then dc else dc + 1) then [Emission.finished]
        else [])

/-- The `for entry in entries:` loop (lines 61-87), as the list of emissions
still to come.  Arguments: entries not yet pulled from the scandir iterator,
`idx` = number of entries pulled so far, `count` and `batch` as in the
source, `rc`/`dc` = flag reads / weakref dereferences performed so far.

Per iteration, in source order: the iterator pull (which raises if
`scanFailAfter = some idx`, escaping to the outer handler, line 99-101);
the mutex-guarded flag check (immediate return when set, i.e. no further
emissions); the `count >= max_items` break; the per-entry `try` block
(a failed entry is skipped by `continue`); and the batch-boundary flush. -/
def loadLoop (cfg : LoadCfg) :
    List Entry → Nat → Nat → List LoadedEntry → Nat → Nat → List Emission
  | [], idx, _count, batch, rc, dc =>
    if cfg.scanFailAfter = some idx then [Emission.error (scanErrMsg cfg)]
    else postLoop cfg batch rc dc
  | e :: rest, idx, count, batch, rc, dc =>
    if cfg.scanFailAfter = some idx then [Emission.error (scanErrMsg cfg)]
    else if cfg.intr rc then []
    else if cfg.max_items ≤ count then postLoop cfg batch (rc + 1) dc
    else if e.statOk && e.ctimeOk then
      let batch' := batch ++ [mkLoaded e]
      if cfg.batch_size ≤ batch'.length then
        (if cfg.alive dc then [Emission.batch (sortBatch batch')] else [])
          ++ loadLoop cfg rest (idx + 1) (count + 1) [] (rc + 1) (dc + 1)
      else loadLoop cfg rest (idx + 1) (count + 1) batch' (rc + 1) dc
    else loadLoop cfg rest (idx + 1) count batch (rc + 1) dc

/-- `DirectoryLoader.load_directory` (lines 47-101): flag check before
start, then the path check (line 55-57), then the scan loop.  `pathOk`
models `os.path.exists(self.path) and os.path.isdir(self.path)`;
`entries` is the sequence `os.scandir` yields. -/
def load_directory (cfg : LoadCfg) (pathOk : Bool) (entries : List Entry) : List Emission :=
  if cfg.intr 0 then []
  else if pathOk then loadLoop cfg entries 0 0 [] 1 0
  else [Emission.error (pathErrMsg cfg)]

/-- Discriminator: batch emissions. -/
def isBatch : Emission → Bool
  | Emission.batch _ => true
  | _ => false

/-- Discriminator: final signals (`finished` or `error`). -/
def isFinal : Emission → Bool
  | Emission.batch _ => false
  | _ => true

/-- Number of entries delivered by one emission. -/
def emissionSize : Emission → Nat
  | Emission.batch b => b.length
  | _ => 0

/-- Total number of entries delivered across all batches of a trace. -/
def deliveredCount (tr : List Emission) : Nat :=
  (tr.map emissionSize).sum

/-! ### Facts about the batch sort -/

theorem sortBatch_sorted (l : List LoadedEntry) : List.Sorted keyLe (sortBatch l) :=
  List.sorted_insertionSort keyLe l

theorem sortBatch_length (l : List LoadedEntry) : (sortBatch l).length = l.length :=
  (List.perm_insertionSort keyLe l).length_eq

theorem mem_sortBatch {x : LoadedEntry} {l : List LoadedEntry} :
    x ∈ sortBatch l ↔ x ∈ l :=
  (List.perm_insertionSort keyLe l).mem_iff

/-! ### Concrete fixtures used by witnesses and counterexamples -/

/-- A well-behaved file entry (the `f1` of the spec's scenario). -/
def entF1 : Entry :=
  { name := "f1", isDir := false, fsize := 2048, epath := "/a/f1",
    ctime := 0, hasKids := false, statOk := true, ctimeOk := true }

/-- A well-behaved subdirectory entry (the `b/` of the spec's scenario). -/
def entSubB : Entry :=
  { name := "b", isDir := true, fsize := 0, epath := "/a/b",
    ctime := 0, hasKids := true, statOk := true, ctimeOk := true }

/-- An entry whose creation-timestamp `stat` call fails
(`statOk = true`, `ctimeOk = false`). -/
def entCtimeBad : Entry :=
  { name := "bad", isDir := false, fsize := 7, epath := "/a/bad",
    ctime := 0, hasKids := false, statOk := true, ctimeOk := false }

/-- Default-parameter run in which the flag is never set, the parent item
stays alive, and the scan does not fail. -/
def cfgGood : LoadCfg :=
  { path := "/a", batch_size := 100, max_items := 10000,
    intr := fun _ => false, alive := fun _ => true,
    scanFailAfter := none, scanExcMsg := "" }

/-- Like `cfgGood`, but the parent item's weak reference is dead at every
dereference. -/
def cfgDead : LoadCfg :=
  { cfgGood with alive := fun _ => false }

/-- Like `cfgGood`, but the cancel flag is set from the start. -/
def cfgIntrAll : LoadCfg :=
  { cfgGood with intr := fun _ => true }

/-! ### C3 — Directory Loader cancellation -/

/-- C3: Directory Loader cancellation.  If the cancel flag is set when read
before the run starts (read 0, lines 51-54), `load_directory` returns with
no emissions at all; and whenever the per-entry check at the top of a loop
iteration (lines 62-65) observes the flag — which presupposes the iterator
pull for that iteration did not raise — the run returns immediately, so the
remainder of the run delivers zero batches and neither a `finished` nor an
`error` signal. -/
theorem c3_directory_loader_cancellation (cfg : LoadCfg) (pathOk : Bool)
    (entries : List Entry) :
    (cfg.intr 0 = true → load_directory cfg pathOk entries = [])
    ∧ (∀ e rest idx count batch rc dc, cfg.scanFailAfter ≠ some idx →
        cfg.intr rc = true →
        loadLoop cfg (e :: rest) idx count batch rc dc = []) := by
  constructor
  · intro h
    simp [load_directory, h]
  · intro e rest idx count batch rc dc hscan hintr
    simp [loadLoop, hscan, hintr]

/-- Witness for C3 at a concrete run: with the flag set everywhere, the run
of `cfgIntrAll` over `[entF1]` emits nothing, and a mid-scan observation
also returns with no further emissions. -/
theorem c3_directory_loader_cancellation_witness :
    load_directory cfgIntrAll true [entF1] = []
    ∧ loadLoop cfgIntrAll [entF1] 3 2 [mkLoaded entSubB] 4 1 = [] := by
  refine ⟨(c3_directory_loader_cancellation cfgIntrAll true [entF1]).1 rfl, ?_⟩
  exact (c3_directory_loader_cancellation cfgIntrAll true [entF1]).2
    entF1 [] 3 2 [mkLoaded entSubB] 4 1 (by decide) rfl

/-! ### C6 — Directory Loader batching -/

theorem deliveredCount_append (xs ys : List Emission) :
    deliveredCount (xs ++ ys) = deliveredCount xs + deliveredCount ys := by
  simp [deliveredCount]

theorem mem_postLoop {cfg : LoadCfg} {batch : List LoadedEntry} {rc dc : Nat}
    {x : Emission} (hx : x ∈ postLoop cfg batch rc dc) :
    x = Emission.batch (sortBatch batch) ∨ x = Emission.finished := by
  unfold postLoop at hx
  rcases List.mem_append.mp hx with h | h <;>
    · split at h
      · simp at h
      · split at h <;> simp_all

theorem deliveredCount_postLoop (cfg : LoadCfg) (batch : List LoadedEntry) (rc dc : Nat) :
    deliveredCount (postLoop cfg batch rc dc) ≤ batch.length := by
  unfold postLoop
  rw [deliveredCount_append]
  have h1 : deliveredCount
      (if batch.isEmpty then []
       else if cfg.alive dc then [Emission.batch (sortBatch batch)] else [])
      ≤ batch.length := by
    split
    · simp [deliveredCount]
    · split <;> simp [deliveredCount, emissionSize, sortBatch_length]
  have h2 : deliveredCount
      (if cfg.intr rc then []
       else if cfg.alive (if batch.isEmpty then dc else dc + 1) then [Emission.finished]
       else [])
      = 0 := by
    repeat' split
    all_goals rfl
  omega

/-- Unfolding equation of `loadLoop` on the empty scandir tail. -/
theorem loadLoop_nil (cfg : LoadCfg) (idx count : Nat) (batch : List LoadedEntry)
    (rc dc : Nat) :
    loadLoop cfg [] idx count batch rc dc =
      if cfg.scanFailAfter = some idx then [Emission.error (scanErrMsg cfg)]
      else postLoop cfg batch rc dc := rfl

/-- Unfolding equation of `loadLoop` on a nonempty scandir tail. -/
theorem loadLoop_cons (cfg : LoadCfg) (e : Entry) (rest : List Entry)
    (idx count : Nat) (batch : List LoadedEntry) (rc dc : Nat) :
    loadLoop cfg (e :: rest) idx count batch rc dc =
      if cfg.scanFailAfter = some idx then [Emission.error (scanErrMsg cfg)]
      else if cfg.intr rc then []
      else if cfg.max_items ≤ count then postLoop cfg batch (rc + 1) dc
      else if e.statOk && e.ctimeOk then
        (if cfg.batch_size ≤ (batch ++ [mkLoaded e]).length then
          (if cfg.alive dc then [Emission.batch (sortBatch (batch ++ [mkLoaded e]))] else [])
            ++ loadLoop cfg rest (idx + 1) (count + 1) [] (rc + 1) (dc + 1)
        else loadLoop cfg rest (idx + 1) (count + 1) (batch ++ [mkLoaded e]) (rc + 1) dc)
      else loadLoop cfg rest (idx + 1) count batch (rc + 1) dc := rfl

theorem postLoop_batch_bound (cfg : LoadCfg) {batch : List LoadedEntry} {rc dc : Nat}
    (hlen : batch.length ≤ cfg.batch_size) :
    ∀ b, Emission.batch b ∈ postLoop cfg batch rc dc →
      b.length ≤ cfg.batch_size ∧ List.Sorted keyLe b := by
  intro b hb
  rcases mem_postLoop hb with h | h
  · cases h
    exact ⟨by rw [sortBatch_length]; exact hlen, sortBatch_sorted batch⟩
  · cases h

theorem loadLoop_batch_bound (cfg : LoadCfg) :
    ∀ (entries : List Entry) (idx count : Nat) (batch : List LoadedEntry) (rc dc : Nat),
      batch.length < cfg.batch_size →
      ∀ b, Emission.batch b ∈ loadLoop cfg entries idx count batch rc dc →
        b.length ≤ cfg.batch_size ∧ List.Sorted keyLe b := by
  intro entries
  induction entries with
  | nil =>
    intro idx count batch rc dc hlt b hb
    rw [loadLoop_nil] at hb
    by_cases hsf : cfg.scanFailAfter = some idx
    · rw [if_pos hsf] at hb; simp at hb
    · rw [if_neg hsf] at hb
      exact postLoop_batch_bound cfg hlt.le b hb
  | cons e rest ih =>
    intro idx count batch rc dc hlt b hb
    rw [loadLoop_cons] at hb
    by_cases hsf : cfg.scanFailAfter = some idx
    · rw [if_pos hsf] at hb; simp at hb
    · rw [if_neg hsf] at hb
      by_cases hin : cfg.intr rc = true
      · rw [if_pos hin] at hb; simp at hb
      · rw [if_neg hin] at hb
        by_cases hmax : cfg.max_items ≤ count
        · rw [if_pos hmax] at hb
          exact postLoop_batch_bound cfg hlt.le b hb
        · rw [if_neg hmax] at hb
          by_cases hok : (e.statOk && e.ctimeOk) = true
          · rw [if_pos hok] at hb
            by_cases hfull : cfg.batch_size ≤ (batch ++ [mkLoaded e]).length
            · rw [if_pos hfull] at hb
              rcases List.mem_append.mp hb with h | h
              · have hb' : b = sortBatch (batch ++ [mkLoaded e]) := by
                  split at h <;> simp_all
                cases hb'
                refine ⟨?_, sortBatch_sorted _⟩
                rw [sortBatch_length]
                simp only [List.length_append, List.length_singleton]
                omega
              · exact ih (idx + 1) (count + 1) [] (rc + 1) (dc + 1)
                  (by simpa using Nat.zero_lt_of_lt hlt) b h
            · rw [if_neg hfull] at hb
              exact ih (idx + 1) (count + 1) (batch ++ [mkLoaded e]) (rc + 1) dc
                (Nat.lt_of_not_le hfull) b hb
          · rw [if_neg hok] at hb
            exact ih (idx + 1) count batch (rc + 1) dc hlt b hb

theorem loadLoop_delivered_le (cfg : LoadCfg) :
    ∀ (entries : List Entry) (idx count : Nat) (batch : List LoadedEntry) (rc dc : Nat),
      count ≤ cfg.max_items →
      deliveredCount (loadLoop cfg entries idx count batch rc dc)
        ≤ batch.length + (cfg.max_items - count) := by
  intro entries
  induction entries with
  | nil =>
    intro idx count batch rc dc hc
    rw [loadLoop_nil]
    by_cases hsf : cfg.scanFailAfter = some idx
    · rw [if_pos hsf]; simp [deliveredCount, emissionSize]
    · rw [if_neg hsf]
      exact Nat.le_trans (deliveredCount_postLoop cfg batch rc dc) (Nat.le_add_right _ _)
  | cons e rest ih =>
    intro idx count batch rc dc hc
    rw [loadLoop_cons]
    by_cases hsf : cfg.scanFailAfter = some idx
    · rw [if_pos hsf]; simp [deliveredCount, emissionSize]
    · rw [if_neg hsf]
      by_cases hin : cfg.intr rc = true
      · rw [if_pos hin]; simp [deliveredCount]
      · rw [if_neg hin]
        by_cases hmax : cfg.max_items ≤ count
        · rw [if_pos hmax]
          exact Nat.le_trans (deliveredCount_postLoop cfg batch (rc + 1) dc)
            (Nat.le_add_right _ _)
        · rw [if_neg hmax]
          have hlt : count < cfg.max_items := Nat.lt_of_not_le hmax
          by_cases hok : (e.statOk && e.ctimeOk) = true
          · rw [if_pos hok]
            by_cases hfull : cfg.batch_size ≤ (batch ++ [mkLoaded e]).length
            · rw [if_pos hfull, deliveredCount_append]
              have h1 : deliveredCount
                  (if cfg.alive dc then [Emission.batch (sortBatch (batch ++ [mkLoaded e]))]
                   else [])
                  ≤ batch.length + 1 := by
                split <;> simp [deliveredCount, emissionSize, sortBatch_length]
              have h2 := ih (idx + 1) (count + 1) [] (rc + 1) (dc + 1) hlt
              simp only [List.length_nil] at h2
              omega
            · rw [if_neg hfull]
              have h2 := ih (idx + 1) (count + 1) (batch ++ [mkLoaded e]) (rc + 1) dc hlt
              simp only [List.length_append, List.length_singleton] at h2
              omega
          · rw [if_neg hok]
            exact ih (idx + 1) count batch (rc + 1) dc hc

/-- C6: Directory Loader batching.  Provided the configured batch size is
positive (the constructor's default is 100, and the only call site,
line 245, uses the defaults), every batch the run delivers holds at most
`batch_size` entries and is sorted directories-before-files and then by
case-insensitive name, and the total number of entries delivered across all
batches of one run never exceeds `max_items` (default 10,000). -/
theorem c6_directory_loader_batching (cfg : LoadCfg) (pathOk : Bool)
    (entries : List Entry) (hbs : 0 < cfg.batch_size) :
    (∀ b, Emission.batch b ∈ load_directory cfg pathOk entries →
      b.length ≤ cfg.batch_size ∧ List.Sorted keyLe b)
    ∧ deliveredCount (load_directory cfg pathOk entries) ≤ cfg.max_items := by
  unfold load_directory
  by_cases hin : cfg.intr 0 = true
  · simp [hin, deliveredCount]
  · by_cases hp : pathOk = true
    · simp only [hin, Bool.false_eq_true, if_false, hp, if_true]
      refine ⟨fun b hb => loadLoop_batch_bound cfg entries 0 0 [] 1 0 (by simpa using hbs) b hb, ?_⟩
      have := loadLoop_delivered_le cfg entries 0 0 [] 1 0 (Nat.zero_le _)
      simpa using this
    · simp [hin, hp, deliveredCount, emissionSize]

/-- Witness for C6: a concrete run of `cfgGood` over `[entF1, entSubB]`
delivers the single sorted batch `[b, f1]` of size ≤ 100 and at most
10,000 entries in total. -/
theorem c6_directory_loader_batching_witness :
    ([mkLoaded entSubB, mkLoaded entF1].length ≤ cfgGood.batch_size
      ∧ List.Sorted keyLe [mkLoaded entSubB, mkLoaded entF1])
    ∧ deliveredCount (load_directory cfgGood true [entF1, entSubB]) ≤ cfgGood.max_items :=
  ⟨(c6_directory_loader_batching cfgGood true [entF1, entSubB] (by decide)).1
      [mkLoaded entSubB, mkLoaded entF1] (by decide),
   (c6_directory_loader_batching cfgGood true [entF1, entSubB] (by decide)).2⟩

/-! ### C5 — one-shot finalization of a Directory Loader run

The claim as stated fails on the code: the `finished` emission (line 97) and
the remaining-batch emission (line 92) are both guarded by
`self.parent_item_ref()` being alive; when the tree item has been garbage
collected (which happens whenever the tree is cleared, line 218), a
non-cancelled run ends with no final signal at all. -/

theorem postLoop_good (cfg : LoadCfg) (batch : List LoadedEntry) (rc dc : Nat)
    (hi : cfg.intr rc = false) (ha : ∀ k, cfg.alive k = true) :
    postLoop cfg batch rc dc
      = (if batch.isEmpty then [] else [Emission.batch (sortBatch batch)])
          ++ [Emission.finished] := by
  unfold postLoop
  rw [hi, ha, ha]
  simp

theorem loadLoop_one_final (cfg : LoadCfg) (hi : ∀ k, cfg.intr k = false)
    (ha : ∀ k, cfg.alive k = true) :
    ∀ (entries : List Entry) (idx count : Nat) (batch : List LoadedEntry) (rc dc : Nat),
      ∃ pre f, loadLoop cfg entries idx count batch rc dc = pre ++ [f]
        ∧ (∀ x ∈ pre, isBatch x = true)
        ∧ isFinal f = true
        ∧ (cfg.scanFailAfter = none → f = Emission.finished) := by
  intro entries
  induction entries with
  | nil =>
    intro idx count batch rc dc
    rw [loadLoop_nil]
    by_cases hsf : cfg.scanFailAfter = some idx
    · rw [if_pos hsf]
      exact ⟨[], Emission.error (scanErrMsg cfg), rfl, by simp, rfl,
        fun hn => by rw [hn] at hsf; cases hsf⟩
    · rw [if_neg hsf, postLoop_good cfg batch rc dc (hi rc) ha]
      refine ⟨(if batch.isEmpty then [] else [Emission.batch (sortBatch batch)]),
        Emission.finished, rfl, ?_, rfl, fun _ => rfl⟩
      intro x hx
      split at hx
      · simp at hx
      · simp at hx
        rw [hx]; rfl
  | cons e rest ih =>
    intro idx count batch rc dc
    rw [loadLoop_cons]
    by_cases hsf : cfg.scanFailAfter = some idx
    · rw [if_pos hsf]
      exact ⟨[], Emission.error (scanErrMsg cfg), rfl, by simp, rfl,
        fun hn => by rw [hn] at hsf; cases hsf⟩
    · rw [if_neg hsf, hi rc]
      simp only [Bool.false_eq_true, if_false]
      by_cases hmax : cfg.max_items ≤ count
      · rw [if_pos hmax, postLoop_good cfg batch (rc + 1) dc (hi (rc + 1)) ha]
        refine ⟨(if batch.isEmpty then [] else [Emission.batch (sortBatch batch)]),
          Emission.finished, rfl, ?_, rfl, fun _ => rfl⟩
        intro x hx
        split at hx
        · simp at hx
        · simp at hx
          rw [hx]; rfl
      · rw [if_neg hmax]
        by_cases hok : (e.statOk && e.ctimeOk) = true
        · rw [if_pos hok]
          by_cases hfull : cfg.batch_size ≤ (batch ++ [mkLoaded e]).length
          · rw [if_pos hfull, ha dc]
            simp only [if_true]
            obtain ⟨pre, f, heq, hpre, hf, hfin⟩ :=
              ih (idx + 1) (count + 1) [] (rc + 1) (dc + 1)
            refine ⟨Emission.batch (sortBatch (batch ++ [mkLoaded e])) :: pre, f, ?_, ?_, hf, hfin⟩
            · rw [heq]; rfl
            · intro x hx
              rcases List.mem_cons.mp hx with h | h
              · rw [h]; rfl
              · exact hpre x h
          · rw [if_neg hfull]
            exact ih (idx + 1) (count + 1) (batch ++ [mkLoaded e]) (rc + 1) dc
        · rw [if_neg hok]
          exact ih (idx + 1) count batch (rc + 1) dc

/-- C5-counterexample: the claim "for every non-cancelled run exactly one of
{completion, error} is emitted" is false as stated.  In the run
`load_directory cfgDead true [entF1]` the cancel flag is never set, the path
check passes and the scan succeeds, yet the trace is empty: the parent
item's weak reference is dead at every dereference, so neither the batch nor
any final signal is emitted — zero final signals instead of exactly one. -/
theorem c5_one_shot_finalization_counterexample :
    (∀ k, cfgDead.intr k = false)
    ∧ load_directory cfgDead true [entF1] = []
    ∧ (load_directory cfgDead true [entF1]).countP isFinal = 0 :=
  ⟨fun _ => rfl, by decide, by decide⟩

/-- C5 (amended): for every non-cancelled run in which the parent item's
weak reference is alive at every dereference, exactly one of
{`finished`, `error`} is emitted — `finished` on normal exhaustion (after
any remaining entries are flushed as a last batch), `error` on a
directory-level failure — never both, and the final signal is the last
element of the trace, after every batch. -/
theorem c5_one_shot_finalization_amended (cfg : LoadCfg) (pathOk : Bool)
    (entries : List Entry) (hi : ∀ k, cfg.intr k = false)
    (ha : ∀ k, cfg.alive k = true) :
    (load_directory cfg pathOk entries).countP isFinal = 1
    ∧ (∀ x ∈ (load_directory cfg pathOk entries).dropLast, isBatch x = true)
    ∧ isFinal ((load_directory cfg pathOk entries).getLastD (Emission.batch [])) = true
    ∧ (pathOk = false →
        load_directory cfg pathOk entries = [Emission.error (pathErrMsg cfg)])
    ∧ (cfg.scanFailAfter = none → pathOk = true →
        (load_directory cfg pathOk entries).getLastD (Emission.batch [])
          = Emission.finished) := by
  have hshape : ∃ pre f, load_directory cfg pathOk entries = pre ++ [f]
      ∧ (∀ x ∈ pre, isBatch x = true)
      ∧ isFinal f = true
      ∧ (cfg.scanFailAfter = none → pathOk = true → f = Emission.finished) := by
    unfold load_directory
    rw [hi 0]
    simp only [Bool.false_eq_true, if_false]
    by_cases hp : pathOk = true
    · rw [if_pos hp]
      obtain ⟨pre, f, heq, hpre, hf, hfin⟩ := loadLoop_one_final cfg hi ha entries 0 0 [] 1 0
      exact ⟨pre, f, heq, hpre, hf, fun h _ => hfin h⟩
    · rw [if_neg hp]
      exact ⟨[], Emission.error (pathErrMsg cfg), rfl, by simp, rfl, fun _ h => absurd h hp⟩
  obtain ⟨pre, f, heq, hpre, hf, hfin⟩ := hshape
  rw [heq]
  refine ⟨?_, ?_, ?_, ?_, ?_⟩
  · rw [List.countP_append]
    have h0 : pre.countP isFinal = 0 := by
      rw [List.countP_eq_zero]
      intro x hx
      have := hpre x hx
      cases x <;> simp_all [isBatch, isFinal]
    simp [h0, List.countP_cons, hf]
  · intro x hx
    rw [List.dropLast_concat] at hx
    exact hpre x hx
  · rw [List.getLastD_concat]
    exact hf
  · intro hp
    rw [← heq]
    unfold load_directory
    rw [hi 0]
    simp [hp]
  · intro hsf hp
    rw [List.getLastD_concat]
    exact hfin hsf hp

/-- Witness for the amended C5 at a concrete run: `cfgGood` over
`[entF1, entSubB]` delivers exactly one final signal, and it is
`finished`. -/
theorem c5_one_shot_finalization_amended_witness :
    (load_directory cfgGood true [entF1, entSubB]).countP isFinal = 1
    ∧ (load_directory cfgGood true [entF1, entSubB]).getLastD (Emission.batch [])
        = Emission.finished :=
  ⟨(c5_one_shot_finalization_amended cfgGood true [entF1, entSubB]
      (fun _ => rfl) (fun _ => rfl)).1,
   (c5_one_shot_finalization_amended cfgGood true [entF1, entSubB]
      (fun _ => rfl) (fun _ => rfl)).2.2.2.2 rfl rfl⟩

/-! ### C7 — per-entry failure tolerance in the Entry Scanner

The first half of the claim holds: a per-entry failure is caught by the
`except`/`continue` (lines 79-81) and the scan proceeds with the next entry.
The second half is false on the code: the creation-timestamp capture
(line 75) sits before `batch.append` inside the same `try`, so an entry
whose ctime `stat` fails is skipped entirely — it is not produced with an
absent timestamp. -/

theorem postLoop_batch_mem {cfg : LoadCfg} {batch b : List LoadedEntry} {rc dc : Nat}
    (hb : Emission.batch b ∈ postLoop cfg batch rc dc) :
    ∀ le ∈ b, le ∈ batch := by
  rcases mem_postLoop hb with h | h
  · injection h with h
    intro le hle
    rw [h] at hle
    exact mem_sortBatch.mp hle
  · cases h

theorem loadLoop_batch_sources (cfg : LoadCfg) :
    ∀ (entries : List Entry) (idx count : Nat) (batch : List LoadedEntry) (rc dc : Nat) b,
      Emission.batch b ∈ loadLoop cfg entries idx count batch rc dc →
      ∀ le ∈ b, le ∈ batch
        ∨ ∃ e, e ∈ entries ∧ e.statOk = true ∧ e.ctimeOk = true ∧ le = mkLoaded e := by
  intro entries
  induction entries with
  | nil =>
    intro idx count batch rc dc b hb le hle
    rw [loadLoop_nil] at hb
    by_cases hsf : cfg.scanFailAfter = some idx
    · rw [if_pos hsf] at hb; simp at hb
    · rw [if_neg hsf] at hb
      exact Or.inl (postLoop_batch_mem hb le hle)
  | cons e rest ih =>
    intro idx count batch rc dc b hb le hle
    rw [loadLoop_cons] at hb
    by_cases hsf : cfg.scanFailAfter = some idx
    · rw [if_pos hsf] at hb; simp at hb
    · rw [if_neg hsf] at hb
      by_cases hin : cfg.intr rc = true
      · rw [if_pos hin] at hb; simp at hb
      · rw [if_neg hin] at hb
        by_cases hmax : cfg.max_items ≤ count
        · rw [if_pos hmax] at hb
          exact Or.inl (postLoop_batch_mem hb le hle)
        · rw [if_neg hmax] at hb
          by_cases hok : (e.statOk && e.ctimeOk) = true
          · have hst : e.statOk = true := by
              rcases Bool.and_eq_true_iff.mp hok with ⟨h1, _⟩; exact h1
            have hct : e.ctimeOk = true := by
              rcases Bool.and_eq_true_iff.mp hok with ⟨_, h2⟩; exact h2
            rw [if_pos hok] at hb
            by_cases hfull : cfg.batch_size ≤ (batch ++ [mkLoaded e]).length
            · rw [if_pos hfull] at hb
              rcases List.mem_append.mp hb with h | h
              · have hb' : b = sortBatch (batch ++ [mkLoaded e]) := by
                  split at h <;> simp_all
                rw [hb'] at hle
                rcases List.mem_append.mp (mem_sortBatch.mp hle) with h1 | h1
                · exact Or.inl h1
                · simp at h1
                  exact Or.inr ⟨e, List.mem_cons_self e rest, hst, hct, h1⟩
              · rcases ih (idx + 1) (count + 1) [] (rc + 1) (dc + 1) b h le hle with h1 | h1
                · simp at h1
                · obtain ⟨e', he', h2, h3, h4⟩ := h1
                  exact Or.inr ⟨e', List.mem_cons_of_mem e he', h2, h3, h4⟩
            · rw [if_neg hfull] at hb
              rcases ih (idx + 1) (count + 1) (batch ++ [mkLoaded e]) (rc + 1) dc b hb le hle
                  with h1 | h1
              · rcases List.mem_append.mp h1 with h2 | h2
                · exact Or.inl h2
                · simp at h2
                  exact Or.inr ⟨e, List.mem_cons_self e rest, hst, hct, h2⟩
              · obtain ⟨e', he', h2, h3, h4⟩ := h1
                exact Or.inr ⟨e', List.mem_cons_of_mem e he', h2, h3, h4⟩
          · rw [if_neg hok] at hb
            rcases ih (idx + 1) count batch (rc + 1) dc b hb le hle with h1 | h1
            · exact Or.inl h1
            · obtain ⟨e', he', h2, h3, h4⟩ := h1
              exact Or.inr ⟨e', List.mem_cons_of_mem e he', h2, h3, h4⟩

/-- C7-counterexample: the claim "an entry whose creation-timestamp capture
fails is still produced, with the timestamp absent" is false as stated.  In
the run of `cfgGood` over `[entCtimeBad, entF1]` — where `entCtimeBad`'s
ctime `stat` raises but its other stats succeed — the whole trace is the
single batch `[mkLoaded entF1]` followed by `finished`: the failed entry is
skipped entirely (its name appears in no delivered entry), not produced
without a timestamp. -/
theorem c7_per_entry_failure_counterexample :
    entCtimeBad.statOk = true ∧ entCtimeBad.ctimeOk = false
    ∧ load_directory cfgGood true [entCtimeBad, entF1]
        = [Emission.batch [mkLoaded entF1], Emission.finished]
    ∧ (mkLoaded entF1).name ≠ entCtimeBad.name := by
  refine ⟨rfl, rfl, by decide, by decide⟩

/-- C7 (amended): a per-entry stat failure (including a failure of the
creation-timestamp capture) never aborts the whole listing — the loop
continues with the remaining entries exactly as if the failed entry had not
been yielded — but the failed entry is skipped entirely: every entry that
appears in a delivered batch comes from a scandir entry all of whose stat
calls (including the ctime one) succeeded. -/
theorem c7_per_entry_failure_amended (cfg : LoadCfg) :
    (∀ (e : Entry) (rest : List Entry) (idx count : Nat) (batch : List LoadedEntry)
        (rc dc : Nat),
      cfg.scanFailAfter ≠ some idx → cfg.intr rc = false → count < cfg.max_items →
      (e.statOk = false ∨ e.ctimeOk = false) →
      loadLoop cfg (e :: rest) idx count batch rc dc
        = loadLoop cfg rest (idx + 1) count batch (rc + 1) dc)
    ∧ (∀ (pathOk : Bool) (entries : List Entry) b,
        Emission.batch b ∈ load_directory cfg pathOk entries →
        ∀ le ∈ b, ∃ e, e ∈ entries ∧ e.statOk = true ∧ e.ctimeOk = true ∧ le = mkLoaded e) := by
  constructor
  · intro e rest idx count batch rc dc hsf hin hcount hfail
    rw [loadLoop_cons, if_neg hsf, hin]
    simp only [Bool.false_eq_true, if_false]
    rw [if_neg (Nat.not_le_of_lt hcount)]
    have hok : (e.statOk && e.ctimeOk) = false := by
      rcases hfail with h | h <;> simp [h]
    rw [hok]
    simp
  · intro pathOk entries b hb le hle
    unfold load_directory at hb
    by_cases hin : cfg.intr 0 = true
    · rw [if_pos hin] at hb; simp at hb
    · rw [if_neg hin] at hb
      by_cases hp : pathOk = true
      · rw [if_pos hp] at hb
        rcases loadLoop_batch_sources cfg entries 0 0 [] 1 0 b hb le hle with h | h
        · simp at h
        · exact h
      · rw [if_neg hp] at hb
        simp at hb

/-- Witness for the amended C7: skipping `entCtimeBad` leaves the run
exactly where a run starting at the next entry would be. -/
theorem c7_per_entry_failure_amended_witness :
    loadLoop cfgGood [entCtimeBad, entF1] 0 0 [] 1 0
      = loadLoop cfgGood [entF1] 1 0 [] 2 0 :=
  (c7_per_entry_failure_amended cfgGood).1 entCtimeBad [entF1] 0 0 [] 1 0
    (by decide) rfl (by decide) (Or.inr rfl)

/-! ### Size Aggregator (`FolderSizeWorker`, ssdtree.py lines 338-398)

`process` enumerates the target directory's immediate children
(`list(os.scandir(self.path))`, line 354) and for each one either takes the
file's `st_size` or, for a subdirectory, walks its subtree with
`get_folder_size`.  The cancel-flag reads are indexed by a single counter
threaded through both functions: one mutex-guarded read per immediate child
(lines 357-360) and one per `os.walk` step (lines 382-384). -/

/-- One `root, dirs, files` step of `os.walk`: the `os.path.getsize` result
per file, `none` when the call raised and the file was skipped
(lines 385-390). -/
structure WalkStep where
  files : List (Option Nat)
deriving DecidableEq, Repr

/-- One immediate child of the aggregation target.  `statOk` covers the
fallible per-entry calls of the `try` block (lines 361-368:
`entry.is_dir(...)` and `entry.stat(...).st_size`); `walk` is the `os.walk`
sequence of a subdirectory (ignored for files). -/
structure FEntry where
  name : String
  isDir : Bool
  fsize : Nat
  statOk : Bool
  walk : List WalkStep
deriving DecidableEq, Repr

/-- One Qt signal emission of a `FolderSizeWorker` run. -/
inductive FEmission where
  | progress (pct : Nat)
  | finished (data : List (String × Nat))
  | error (msg : String)
deriving DecidableEq, Repr

/-- Sum of the readable file sizes of one walk step. -/
def walkSum (w : WalkStep) : Nat :=
  (w.files.filterMap id).sum

/-- `FolderSizeWorker.get_folder_size` (lines 378-393): walk the subtree,
checking the cancel flag once per step; when the flag is observed the walk
returns 0, discarding the partial total.  Returns the total together with
the updated read counter. -/
def get_folder_size (intr : Nat → Bool) : List WalkStep → Nat → Nat → Nat × Nat
  | [], rc, total => (total, rc)
  | w :: rest, rc, total =>
    if intr rc then (0, rc + 1)
    else get_folder_size intr rest (rc + 1) (total + walkSum w)

/-- The `for idx, entry in enumerate(entries):` loop of
`FolderSizeWorker.process` (lines 356-371) followed by the `finished`
emission (line 372), as the list of emissions still to come.  `total` is
`len(entries)`; `data` is the mapping accumulated so far (a size is recorded
only when positive, line 366-367); a per-entry failure skips the entry,
including its progress emission (lines 369-371). -/
def processGo (intr : Nat → Bool) (total : Nat) :
    List FEntry → Nat → Nat → List (String × Nat) → List FEmission
  | [], _idx, _rc, data => [FEmission.finished data]
  | e :: rest, idx, rc, data =>
    if intr rc then []
    else if e.statOk then
      if e.isDir then
        let r := get_folder_size intr e.walk (rc + 1) 0
        FEmission.progress ((idx + 1) * 100 / total)
          :: processGo intr total rest (idx + 1) r.2
              (if 0 < r.1 then data ++ [(e.name, r.1)] else data)
      else
        FEmission.progress ((idx + 1) * 100 / total)
          :: processGo intr total rest (idx + 1) (rc + 1)
              (if 0 < e.fsize then data ++ [(e.name, e.fsize)] else data)
    else processGo intr total rest (idx + 1) (rc + 1) data

/-- `FolderSizeWorker.process` (lines 349-376).  `scanOk` models
`list(os.scandir(self.path))` succeeding; on failure the outer handler
emits a single `error` with `str(e)` (modelled by `excMsg`).  The Python
progress value `int((idx+1)/total*100)` is modelled by Nat division
`(idx+1)*100/total` (both truncate toward zero). -/
def process (intr : Nat → Bool) (scanOk : Bool) (excMsg : String)
    (entries : List FEntry) : List FEmission :=
  if scanOk then processGo intr entries.length entries 0 0 []
  else [FEmission.error excMsg]

/-- Unfolding equation of `processGo` on the empty child list. -/
theorem processGo_nil (intr : Nat → Bool) (total idx rc : Nat) (data : List (String × Nat)) :
    processGo intr total [] idx rc data = [FEmission.finished data] := rfl

/-- Unfolding equation of `processGo` on a nonempty child list. -/
theorem processGo_cons (intr : Nat → Bool) (total : Nat) (e : FEntry) (rest : List FEntry)
    (idx rc : Nat) (data : List (String × Nat)) :
    processGo intr total (e :: rest) idx rc data =
      if intr rc then []
      else if e.statOk then
        if e.isDir then
          FEmission.progress ((idx + 1) * 100 / total)
            :: processGo intr total rest (idx + 1) (get_folder_size intr e.walk (rc + 1) 0).2
                (if 0 < (get_folder_size intr e.walk (rc + 1) 0).1
                 then data ++ [(e.name, (get_folder_size intr e.walk (rc + 1) 0).1)]
                 else data)
        else
          FEmission.progress ((idx + 1) * 100 / total)
            :: processGo intr total rest (idx + 1) (rc + 1)
                (if 0 < e.fsize then data ++ [(e.name, e.fsize)] else data)
      else processGo intr total rest (idx + 1) (rc + 1) data := rfl

/-! ### Fixtures for the Size Aggregator claims -/

/-- A flag oracle that never observes cancellation. -/
def intrNever : Nat → Bool := fun _ => false

/-- A flag oracle set from the second read on: the per-child checkpoint
(read 0) sees it unset, every later checkpoint sees it set. -/
def intrFrom1 : Nat → Bool := fun k => decide (1 ≤ k)

/-- File child of 2048 bytes (the `f1` of the spec's scenario). -/
def feF1 : FEntry :=
  { name := "f1", isDir := false, fsize := 2048, statOk := true, walk := [] }

/-- File child of size zero. -/
def feZero : FEntry :=
  { name := "z", isDir := false, fsize := 0, statOk := true, walk := [] }

/-- Sole subdirectory child whose walk has one step with one readable
file of 5 bytes. -/
def feDirOnly : FEntry :=
  { name := "d", isDir := true, fsize := 0, statOk := true,
    walk := [{ files := [some 5] }] }

/-! ### C4 — Size Aggregator cancellation

The checkpoint placement in the claim is accurate (one mutex-guarded read
before each immediate child, lines 357-360, and one per `os.walk` step,
lines 382-384), but the conclusion is not: a cancellation observed inside
`get_folder_size` only makes that walk return 0 (line 384) — control
returns to the `process` loop, which emits the child's progress update and,
if no later per-child checkpoint observes the flag (in particular when the
cancelled walk belonged to the last child), still emits `finished`. -/

/-- C4-counterexample: the run of `process` over the single subdirectory
child `feDirOnly` with flag oracle `intrFrom1`.  Read 0 (the per-child
checkpoint) observes the flag unset; read 1 (the subdirectory-walk
checkpoint inside `get_folder_size`) observes it set, so the walk is
abandoned with total 0 — yet the run still ends with the `finished`
emission, contradicting "returns without ever emitting the finished
signal". -/
theorem c4_size_aggregator_cancellation_counterexample :
    intrFrom1 0 = false ∧ intrFrom1 1 = true
    ∧ process intrFrom1 true "" [feDirOnly]
        = [FEmission.progress 100, FEmission.finished []] :=
  ⟨rfl, rfl, by decide⟩

/-- C4 (amended): the cancel flag is checked before each immediate child
and at each subdirectory-walk step.  A cancellation observed at a per-child
checkpoint makes the run return immediately, with no further emission and
in particular no `finished`.  A cancellation observed at a walk step makes
that walk return 0 (discarding its partial total, so the child is dropped
from the mapping); it does not by itself end the run — the run ends without
`finished` only if a later per-child checkpoint observes the flag, and a
run whose only observation happens during the last child's walk still emits
`finished`. -/
theorem c4_size_aggregator_cancellation_amended (intr : Nat → Bool) (total : Nat) :
    (∀ (e : FEntry) (rest : List FEntry) (idx rc : Nat) (data : List (String × Nat)),
      intr rc = true → processGo intr total (e :: rest) idx rc data = [])
    ∧ (∀ (w : WalkStep) (rest : List WalkStep) (rc acc : Nat),
      intr rc = true → get_folder_size intr (w :: rest) rc acc = (0, rc + 1)) := by
  constructor
  · intro e rest idx rc data h
    rw [processGo_cons, if_pos h]
  · intro w rest rc acc h
    unfold get_folder_size
    rw [if_pos h]

/-- Witness for the amended C4: with the flag set everywhere, the per-child
checkpoint aborts a concrete run with no emissions, and a concrete walk
returns 0 immediately. -/
theorem c4_size_aggregator_cancellation_amended_witness :
    processGo (fun _ => true) 1 [feF1] 0 0 [] = []
    ∧ get_folder_size (fun _ => true) [{ files := [some 5] }] 3 7 = (0, 4) :=
  ⟨(c4_size_aggregator_cancellation_amended (fun _ => true) 1).1 feF1 [] 0 0 [] rfl,
   (c4_size_aggregator_cancellation_amended (fun _ => true) 1).2
      { files := [some 5] } [] 3 7 rfl⟩

/-! ### C8 — zero-size exclusion -/

theorem processGo_finished_pos (intr : Nat → Bool) (total : Nat) :
    ∀ (entries : List FEntry) (idx rc : Nat) (data : List (String × Nat)),
      (∀ p ∈ data, 0 < p.2) →
      ∀ d, FEmission.finished d ∈ processGo intr total entries idx rc data →
        ∀ p ∈ d, 0 < p.2 := by
  intro entries
  induction entries with
  | nil =>
    intro idx rc data hinv d hd
    rw [processGo_nil] at hd
    simp at hd
    rw [hd]
    exact hinv
  | cons e rest ih =>
    intro idx rc data hinv d hd
    rw [processGo_cons] at hd
    by_cases hin : intr rc = true
    · rw [if_pos hin] at hd; simp at hd
    · rw [if_neg hin] at hd
      by_cases hst : e.statOk = true
      · rw [if_pos hst] at hd
        by_cases hdir : e.isDir = true
        · rw [if_pos hdir] at hd
          rcases List.mem_cons.mp hd with h | h
          · cases h
          · refine ih (idx + 1) (get_folder_size intr e.walk (rc + 1) 0).2 _ ?_ d h
            split
            · intro p hp
              rcases List.mem_append.mp hp with h1 | h1
              · exact hinv p h1
              · simp at h1
                rw [h1]
                assumption
            · exact hinv
        · rw [if_neg hdir] at hd
          rcases List.mem_cons.mp hd with h | h
          · cases h
          · refine ih (idx + 1) (rc + 1) _ ?_ d h
            split
            · intro p hp
              rcases List.mem_append.mp hp with h1 | h1
              · exact hinv p h1
              · simp at h1
                rw [h1]
                assumption
            · exact hinv
      · rw [if_neg hst] at hd
        exact ih (idx + 1) (rc + 1) data hinv d hd

/-- C8: zero-size exclusion.  Every mapping delivered by a `finished`
emission of a `FolderSizeWorker` run contains only strictly positive sizes
(a child's size is recorded only under `if size > 0`, lines 366-367), and
aggregating an empty directory yields a final empty mapping with no
progress emissions and no error. -/
theorem c8_zero_size_exclusion (intr : Nat → Bool) (scanOk : Bool) (excMsg : String)
    (entries : List FEntry) :
    (∀ d, FEmission.finished d ∈ process intr scanOk excMsg entries → ∀ p ∈ d, 0 < p.2)
    ∧ process intr true excMsg [] = [FEmission.finished []]
    ∧ (∀ pct, FEmission.progress pct ∉ process intr true excMsg []) := by
  refine ⟨?_, rfl, ?_⟩
  · intro d hd
    unfold process at hd
    by_cases hs : scanOk = true
    · rw [if_pos hs] at hd
      exact processGo_finished_pos intr entries.length entries 0 0 [] (by simp) d hd
    · rw [if_neg hs] at hd
      simp at hd
  · intro pct hpct
    simp [process, processGo] at hpct

/-- Witness for C8: in the run over `[feF1, feZero]` the delivered mapping
is `[("f1", 2048)]` and its sole size is positive; the empty-directory run
is evaluated concretely by the theorem's second conjunct. -/
theorem c8_zero_size_exclusion_witness :
    (0:Nat) < 2048
    ∧ process intrNever true "" [] = [FEmission.finished []] :=
  ⟨(c8_zero_size_exclusion intrNever true "" [feF1, feZero]).1
      [("f1", 2048)] (by decide) ("f1", 2048) (by decide),
   (c8_zero_size_exclusion intrNever true "" []).2.1⟩

/-! ### C9 — the sort-mode "size" comparator
(`SortableTreeWidgetItem.__lt__`, ssdtree.py lines 123-143)

An item is modelled by its column-0 text (the name) and the numeric value
parsed from its column-1 text: `float(self.text(1)) if self.text(1) else
0.0`, with `ValueError` also yielding `0.0` (lines 133-140).  `sizeText`
carries the parsed value as an exact rational (`none` for a blank or
unparsable text, i.e. the cases the source maps to `0.0`); directories
always have blank column-1 text (line 273), files carry a nonnegative
`"%.2f"`-rendered number (line 280). -/

structure SItem where
  name : String
  sizeText : Option ℚ
deriving DecidableEq

/-- The numeric size used by the comparator: a parsed value, or `0.0` for a
blank/unparsable column-1 text. -/
def sizeVal (it : SItem) : ℚ :=
  it.sizeText.getD 0

/-- The `sort_mode == "size"` branch of `__lt__` (lines 132-143):
`if s1 == s2: return self.text(0).lower() < other.text(0).lower();
return s1 > s2`. -/
def sizeLt (a b : SItem) : Bool :=
  if sizeVal a = sizeVal b then lexLt (lowerChars a.name) (lowerChars b.name)
  else decide (sizeVal b < sizeVal a)

/-- Modelled from the spec's words for comparison with `sizeLt`:
"descending by size; ties broken by case-insensitive name". -/
def specSizeLt (a b : SItem) : Bool :=
  if sizeVal b < sizeVal a then true
  else if sizeVal a < sizeVal b then false
  else lexLt (lowerChars a.name) (lowerChars b.name)

/-- C9: the size comparator orders descending by numeric size with ties
broken by case-insensitive name (it coincides with the comparator read off
the spec's words), and a directory — blank column-1 text, parsed as no
number — compares exactly like a file whose parsed size is 0, on either
side of the comparison: no special-casing of directories. -/
theorem c9_size_sort_comparator :
    (∀ a b : SItem, sizeLt a b = specSizeLt a b)
    ∧ (∀ (n : String) (b : SItem),
        sizeLt { name := n, sizeText := none } b
          = sizeLt { name := n, sizeText := some 0 } b
        ∧ sizeLt b { name := n, sizeText := none }
          = sizeLt b { name := n, sizeText := some 0 }) := by
  constructor
  · intro a b
    unfold sizeLt specSizeLt
    rcases lt_trichotomy (sizeVal a) (sizeVal b) with h | h | h
    · rw [if_neg h.ne, if_neg (not_lt.mpr h.le), if_pos h]
      exact decide_eq_false (not_lt.mpr h.le)
    · rw [if_pos h, if_neg (h ▸ lt_irrefl (sizeVal a))]
      rw [if_neg (h ▸ lt_irrefl (sizeVal a))]
    · rw [if_neg (ne_of_gt h), if_pos h]
      simp [h]
  · intro n b
    constructor <;> rfl

/-! ### C10 — cancel-flag monotonicity
(`DirectoryLoader.interrupt`, lines 111-114; `FolderSizeWorker.interrupt`,
lines 395-398; flag initialisation at lines 44-46 and 343-347)

In both classes `_is_interrupted` is written exactly twice in the source:
`False` at construction and `True` in `interrupt()`; every other access is
a mutex-guarded read at a checkpoint.  The `FlagOp` machine is the flag's
operation alphabet: `interrupt` (the only writer) and `checkpoint` (a
read). -/

/-- An operation on the `_is_interrupted` flag of either worker class. -/
inductive FlagOp where
  | interrupt
  | checkpoint
deriving DecidableEq, Repr

/-- Effect of one operation on the flag: `interrupt()` stores `True`
unconditionally; a checkpoint leaves the flag unchanged. -/
def applyFlagOp : Bool → FlagOp → Bool
  | _, FlagOp.interrupt => true
  | b, FlagOp.checkpoint => b

/-- Flag value after a sequence of operations starting from `b`
(constructed state: `b = false`). -/
def runFlagOps (b : Bool) (ops : List FlagOp) : Bool :=
  ops.foldl applyFlagOp b

/-- The values observed by the checkpoints of an operation sequence. -/
def obsFlags : Bool → List FlagOp → List Bool
  | _, [] => []
  | _, FlagOp.interrupt :: rest => obsFlags true rest
  | b, FlagOp.checkpoint :: rest => b :: obsFlags b rest

theorem runFlagOps_true (ops : List FlagOp) : runFlagOps true ops = true := by
  induction ops with
  | nil => rfl
  | cons op rest ih => cases op <;> exact ih

theorem obsFlags_true (ops : List FlagOp) : ∀ v ∈ obsFlags true ops, v = true := by
  induction ops with
  | nil => intro v hv; cases hv
  | cons op rest ih =>
    cases op with
    | interrupt => exact ih
    | checkpoint =>
      intro v hv
      rcases List.mem_cons.mp hv with h | h
      · exact h
      · exact ih v h

theorem obsFlags_append (b : Bool) (xs ys : List FlagOp) :
    obsFlags b (xs ++ ys) = obsFlags b xs ++ obsFlags (runFlagOps b xs) ys := by
  induction xs generalizing b with
  | nil => rfl
  | cons op rest ih =>
    cases op with
    | interrupt => simpa [obsFlags, runFlagOps, applyFlagOp] using ih true
    | checkpoint => simpa [obsFlags, runFlagOps, applyFlagOp] using ih b

/-- C10: the interrupt flag is one-way.  No operation on the flag clears a
set flag; after an `interrupt` anywhere in the operation sequence the flag
is set at the end, whatever else runs; every checkpoint that executes after
an `interrupt` observes the flag set; and a repeated `interrupt` is
idempotent — it changes neither the final flag nor any observation. -/
theorem c10_cancel_flag_monotonicity :
    (∀ (b : Bool) (op : FlagOp), b = true → applyFlagOp b op = true)
    ∧ (∀ (b : Bool) (pre post : List FlagOp),
        runFlagOps b (pre ++ FlagOp.interrupt :: post) = true)
    ∧ (∀ (b : Bool) (pre post : List FlagOp) (v : Bool),
        v ∈ obsFlags b (pre ++ FlagOp.interrupt :: post) →
        v ∈ obsFlags b pre ∨ v = true)
    ∧ (∀ (b : Bool) (ops : List FlagOp),
        runFlagOps b (FlagOp.interrupt :: FlagOp.interrupt :: ops)
          = runFlagOps b (FlagOp.interrupt :: ops)
        ∧ obsFlags b (FlagOp.interrupt :: FlagOp.interrupt :: ops)
          = obsFlags b (FlagOp.interrupt :: ops)) := by
  refine ⟨?_, ?_, ?_, ?_⟩
  · intro b op hb
    cases hb
    cases op <;> rfl
  · intro b pre post
    show List.foldl applyFlagOp b (pre ++ FlagOp.interrupt :: post) = true
    rw [List.foldl_append]
    exact runFlagOps_true post
  · intro b pre post v hv
    rw [obsFlags_append] at hv
    rcases List.mem_append.mp hv with h | h
    · exact Or.inl h
    · exact Or.inr (obsFlags_true post v h)
  · intro b ops
    exact ⟨rfl, rfl⟩

/-- Witness for C10 at concrete operation sequences: no single operation
clears a set flag, and a flag interrupted between two checkpoints is set at
the end of the run. -/
theorem c10_cancel_flag_monotonicity_witness :
    applyFlagOp true FlagOp.checkpoint = true
    ∧ runFlagOps false ([FlagOp.checkpoint] ++ FlagOp.interrupt :: [FlagOp.checkpoint]) = true :=
  ⟨c10_cancel_flag_monotonicity.1 true FlagOp.checkpoint rfl,
   c10_cancel_flag_monotonicity.2.1 false [FlagOp.checkpoint] [FlagOp.checkpoint]⟩

/-! ### C1 — stale-result suppression for size aggregation
(`MainWindow.start_folder_size_worker` / `on_worker_finished`,
ssdtree.py lines 693-723)

The `MainWindow` state relevant to the claim: the monotone counter
`current_worker_id` (line 694), the reference `self.worker` (modelled by
the worker's `path`; `None` after `clear_thread_worker_refs`, lines
731-733), and the Chart Model content (what the last applied
`update_data(data, folder_name, ...)` call displayed, lines 717-722). -/

structure MainSt where
  current_worker_id : Nat
  worker : Option String
  chart : Option (List (String × Nat) × String)
deriving DecidableEq

/-- `MainWindow.__init__` (lines 580-582): `current_worker_id = 0`, no
worker, chart untouched. -/
def initMain : MainSt :=
  { current_worker_id := 0, worker := none, chart := none }

/-- `start_folder_size_worker` (lines 693-709): increment the request
counter, cancel the previous operation (which nulls the old refs,
lines 627-634), store the new worker.  The captured `worker_id` of the
worker started here is the state's `current_worker_id` after this step. -/
def start_folder_size_worker (s : MainSt) (path : String) : MainSt :=
  { s with current_worker_id := s.current_worker_id + 1, worker := some path }

/-- `on_worker_finished(data, worker_id)` (lines 711-723): a stale
identifier returns at once (lines 712-713), leaving every field unchanged;
otherwise the mapping is applied to the chart when `self.worker` is set
with a truthy path (lines 715-722), and the refs are cleared (line 723). -/
def on_worker_finished (s : MainSt) (data : List (String × Nat)) (worker_id : Nat) : MainSt :=
  if worker_id ≠ s.current_worker_id then s
  else
    let s1 :=
      match s.worker with
      | some p => if p ≠ "" then { s with chart := some (data, p) } else s
      | none => s
    { s1 with worker := none }

/-- The events that touch this state: selecting a directory (which starts
an aggregation request), delivery of some worker's `finished` signal with
the identifier it was started with, and the `thread.finished`-driven
clearing of the refs. -/
inductive MEvent where
  | selectDir (path : String)
  | workerDone (worker_id : Nat) (data : List (String × Nat))
  | clearRefs
deriving DecidableEq

def mainStep (s : MainSt) : MEvent → MainSt
  | MEvent.selectDir p => start_folder_size_worker s p
  | MEvent.workerDone wid data => on_worker_finished s data wid
  | MEvent.clearRefs => { s with worker := none }

def runMain (s : MainSt) (es : List MEvent) : MainSt :=
  es.foldl mainStep s

theorem on_worker_finished_id (s : MainSt) (data : List (String × Nat)) (wid : Nat) :
    (on_worker_finished s data wid).current_worker_id = s.current_worker_id := by
  unfold on_worker_finished
  repeat' split
  all_goals rfl

theorem mainStep_id_mono (s : MainSt) (ev : MEvent) :
    s.current_worker_id ≤ (mainStep s ev).current_worker_id := by
  cases ev with
  | selectDir p => exact Nat.le_succ _
  | workerDone wid data => rw [mainStep, on_worker_finished_id]
  | clearRefs => exact Nat.le_refl _

theorem runMain_id_mono (s : MainSt) (es : List MEvent) :
    s.current_worker_id ≤ (runMain s es).current_worker_id := by
  induction es generalizing s with
  | nil => exact Nat.le_refl _
  | cons ev rest ih =>
    exact Nat.le_trans (mainStep_id_mono s ev) (ih (mainStep s ev))

theorem on_worker_finished_stale (s : MainSt) (data : List (String × Nat)) (wid : Nat)
    (h : wid ≠ s.current_worker_id) :
    on_worker_finished s data wid = s := by
  unfold on_worker_finished
  rw [if_pos h]

/-- C1: stale-result suppression.  Each size-aggregation request strictly
increments `current_worker_id` and no event ever decreases it; a `finished`
delivery whose captured identifier differs from the current one leaves the
whole state — in particular the Chart Model — unchanged; a delivery whose
identifier is current, while a worker with a truthy path is referenced,
applies the mapping to the Chart Model; and along any run in which another
request was issued after a worker was started, the delivery of that
worker's mapping (with its captured, now stale identifier) leaves the Chart
Model unchanged — even though the emission arrives after cancellation. -/
theorem c1_stale_result_suppression :
    (∀ (s : MainSt) (p : String),
      (start_folder_size_worker s p).current_worker_id = s.current_worker_id + 1)
    ∧ (∀ (s : MainSt) (ev : MEvent),
        s.current_worker_id ≤ (mainStep s ev).current_worker_id)
    ∧ (∀ (s : MainSt) (data : List (String × Nat)) (wid : Nat),
        wid ≠ s.current_worker_id → on_worker_finished s data wid = s)
    ∧ (∀ (s : MainSt) (data : List (String × Nat)) (p : String),
        s.worker = some p → p ≠ "" →
        (on_worker_finished s data s.current_worker_id).chart = some (data, p))
    ∧ (∀ (s : MainSt) (p q : String) (es1 es2 : List MEvent)
          (data : List (String × Nat)),
        (on_worker_finished
            (runMain (mainStep (runMain (start_folder_size_worker s p) es1)
              (MEvent.selectDir q)) es2)
            data (start_folder_size_worker s p).current_worker_id).chart
          = (runMain (mainStep (runMain (start_folder_size_worker s p) es1)
              (MEvent.selectDir q)) es2).chart) := by
  refine ⟨fun s p => rfl, mainStep_id_mono, on_worker_finished_stale, ?_, ?_⟩
  · intro s data p hw hp
    unfold on_worker_finished
    rw [if_neg (fun h => h rfl)]
    rw [hw]
    simp [hp]
  · intro s p q es1 es2 data
    have h1 : (start_folder_size_worker s p).current_worker_id
        ≤ (runMain (start_folder_size_worker s p) es1).current_worker_id :=
      runMain_id_mono _ es1
    have h2 : (runMain (start_folder_size_worker s p) es1).current_worker_id + 1
        = (mainStep (runMain (start_folder_size_worker s p) es1)
            (MEvent.selectDir q)).current_worker_id := rfl
    have h3 : (mainStep (runMain (start_folder_size_worker s p) es1)
          (MEvent.selectDir q)).current_worker_id
        ≤ (runMain (mainStep (runMain (start_folder_size_worker s p) es1)
            (MEvent.selectDir q)) es2).current_worker_id :=
      runMain_id_mono _ es2
    have hne : (start_folder_size_worker s p).current_worker_id
        ≠ (runMain (mainStep (runMain (start_folder_size_worker s p) es1)
            (MEvent.selectDir q)) es2).current_worker_id := by omega
    rw [on_worker_finished_stale _ data _ hne]

/-- Witness for C1 at concrete states: a delivery carrying identifier 3
while the current identifier is 5 changes nothing, and a current-identifier
delivery applies its mapping to the chart. -/
theorem c1_stale_result_suppression_witness :
    on_worker_finished { current_worker_id := 5, worker := some "/a", chart := none }
        [("f1", 2048)] 3
      = { current_worker_id := 5, worker := some "/a", chart := none }
    ∧ (on_worker_finished { current_worker_id := 5, worker := some "/a", chart := none }
        [("f1", 2048)] 5).chart = some ([("f1", 2048)], "/a") :=
  ⟨c1_stale_result_suppression.2.2.1
      { current_worker_id := 5, worker := some "/a", chart := none } [("f1", 2048)] 3
      (by decide),
   c1_stale_result_suppression.2.2.2.1
      { current_worker_id := 5, worker := some "/a", chart := none } [("f1", 2048)] "/a"
      rfl (by decide)⟩

/-! ### C2 — at most one active `DirectoryLoader` task per tree node
(`FileTreeWidget`, ssdtree.py lines 191-336)

State model.  A `LoadTask` is one `DirectoryLoader` worker/thread pair ever
created: `tid` is its identity (fresh per creation), `node` the
`id(parent_item)` it loads for, `status` whether its background execution
is still in flight (`running`) or has returned/been joined (`finished` —
`thread.wait()` at line 315 blocks until this holds), `interrupted` whether
`worker.interrupt()` was called on it.  `registry` models the mutex-guarded
`_active_threads`/`_active_workers` maps (lines 209-211, always updated
together); `flags` models the per-item `_is_loading`/`_is_loaded` pair.

Events cover every source path that touches this state: `on_item_expanded`
(lines 229-237), a direct `_load_directory_async` (line 226, from
`populate`), the natural end of a worker run together with the delivery of
its `finished` signal (handlers at lines 283-288 and 255, connected while
the task is the registered one for its node and disconnected by
`_cleanup_thread`), `_cleanup_thread` (lines 294-317) and
`_cleanup_threads` (lines 319-323). -/

inductive TStatus where
  | running
  | finished
deriving DecidableEq, Repr

structure LoadTask where
  tid : Nat
  node : Nat
  status : TStatus
  interrupted : Bool
deriving DecidableEq, Repr

structure NodeFlags where
  loading : Bool
  loaded : Bool
deriving DecidableEq, Repr

structure TreeSt where
  tasks : List LoadTask
  registry : Nat → Option Nat
  flags : Nat → NodeFlags
  nextTid : Nat

/-- Effect of `_cleanup_thread` on one task: `worker.interrupt()`
(line 299) then `thread.quit(); thread.wait()` (lines 314-315), after
which the background execution has returned. -/
def joinOne (tid : Nat) (t : LoadTask) : LoadTask :=
  if t.tid = tid then { t with interrupted := true, status := TStatus.finished } else t

/-- Effect on one task of its own run returning naturally. -/
def endOne (tid : Nat) (t : LoadTask) : LoadTask :=
  if t.tid = tid then { t with status := TStatus.finished } else t

/-- `FileTreeWidget._cleanup_thread(item_id)` (lines 294-317): pop the
registered thread/worker for the node (a no-op when none is registered),
interrupt the worker, disconnect its signals, and block on `thread.wait()`
until the background execution has finished. -/
def _cleanup_thread (s : TreeSt) (node : Nat) : TreeSt :=
  match s.registry node with
  | none => s
  | some tid =>
    { s with
      tasks := s.tasks.map (joinOne tid)
      registry := fun n => if n = node then none else s.registry n }

/-- `FileTreeWidget._load_directory_async` (lines 239-258): first clean up
any registered task for the node (cancel + wait), then bail out if the item
is still marked loading, otherwise mark it loading, create a fresh
worker/thread pair, register it and start it. -/
def _load_directory_async (s : TreeSt) (node : Nat) : TreeSt :=
  let s1 := _cleanup_thread s node
  if (s1.flags node).loading then s1
  else
    { tasks := s1.tasks ++
        [{ tid := s1.nextTid, node := node, status := TStatus.running, interrupted := false }]
      registry := fun n => if n = node then some s1.nextTid else s1.registry n
      flags := fun n =>
        if n = node then { loading := true, loaded := (s1.flags node).loaded } else s1.flags n
      nextTid := s1.nextTid + 1 }

/-- `FileTreeWidget.on_item_expanded` (lines 229-237): non-directory paths
are ignored; an item already loaded or loading is left alone; otherwise the
load is started. -/
def on_item_expanded (s : TreeSt) (node : Nat) (isDirPath : Bool) : TreeSt :=
  if !isDirPath then s
  else if (s.flags node).loaded || (s.flags node).loading then s
  else _load_directory_async s node

/-- A worker's background run returns.  `emitted` tells whether the run
emitted its `finished` signal (it does not when interrupted or when the
parent item died, lines 93-97).  The signal reaches the handlers only while
this task is still the registered one for its node — `_cleanup_thread` both
deregisters and disconnects (lines 296-311) — in which case
`on_loading_finished` marks the item loaded (lines 283-288) and the
connected lambda runs `_cleanup_thread` (line 255). -/
def task_run_ends (s : TreeSt) (tid : Nat) (emitted : Bool) : TreeSt :=
  match s.tasks.find? (fun t => t.tid = tid) with
  | none => s
  | some t =>
    let s1 := { s with tasks := s.tasks.map (endOne tid) }
    if emitted = true ∧ s.registry t.node = some tid then
      let s2 := { s1 with flags := fun n =>
        if n = t.node then { loading := false, loaded := true } else s1.flags n }
      _cleanup_thread s2 t.node
    else s1

/-- Effect of the global cleanup on one task: the tasks `_cleanup_thread`
reaches are exactly the registered ones. -/
def sweepOne (reg : Nat → Option Nat) (t : LoadTask) : LoadTask :=
  if reg t.node = some t.tid
  then { t with interrupted := true, status := TStatus.finished } else t

/-- `FileTreeWidget._cleanup_threads` (lines 319-323): run
`_cleanup_thread` on every registered node — every registered task is
interrupted and joined and the registry is emptied. -/
def _cleanup_threads (s : TreeSt) : TreeSt :=
  { s with
    tasks := s.tasks.map (sweepOne s.registry)
    registry := fun _ => none }

inductive TreeEvent where
  | expand (node : Nat) (isDirPath : Bool)
  | loadAsync (node : Nat)
  | runEnds (tid : Nat) (emitted : Bool)
  | cleanupNode (node : Nat)
  | cleanupAll

def treeStep (s : TreeSt) : TreeEvent → TreeSt
  | TreeEvent.expand node d => on_item_expanded s node d
  | TreeEvent.loadAsync node => _load_directory_async s node
  | TreeEvent.runEnds tid em => task_run_ends s tid em
  | TreeEvent.cleanupNode node => _cleanup_thread s node
  | TreeEvent.cleanupAll => _cleanup_threads s

/-- `FileTreeWidget.__init__` (lines 194-211): no tasks, empty registry,
all items unloaded. -/
def initTree : TreeSt :=
  { tasks := [], registry := fun _ => none,
    flags := fun _ => { loading := false, loaded := false }, nextTid := 0 }

/-- The states the widget can reach from construction through any sequence
of the modelled events. -/
inductive TreeReachable : TreeSt → Prop
  | init : TreeReachable initTree
  | step {s : TreeSt} (ev : TreeEvent) : TreeReachable s → TreeReachable (treeStep s ev)

/-- Invariant: every running task is the registered task of its node. -/
def RegInv (s : TreeSt) : Prop :=
  ∀ t ∈ s.tasks, t.status = TStatus.running → s.registry t.node = some t.tid

/-- Invariant: task identities are below the fresh-id counter. -/
def TidBound (s : TreeSt) : Prop :=
  ∀ t ∈ s.tasks, t.tid < s.nextTid

/-- Invariant: task identities are pairwise distinct. -/
def TidUnique (s : TreeSt) : Prop :=
  List.Pairwise (fun a b => a.tid ≠ b.tid) s.tasks

/-- Invariant: registered identities are below the fresh-id counter. -/
def RegValid (s : TreeSt) : Prop :=
  ∀ node tid, s.registry node = some tid → tid < s.nextTid

def TreeInv (s : TreeSt) : Prop :=
  RegInv s ∧ TidBound s ∧ TidUnique s ∧ RegValid s

/-! Facts about the single-task updaters. -/

theorem joinOne_tid (tid : Nat) (t : LoadTask) : (joinOne tid t).tid = t.tid := by
  unfold joinOne; split <;> rfl

theorem joinOne_node (tid : Nat) (t : LoadTask) : (joinOne tid t).node = t.node := by
  unfold joinOne; split <;> rfl

theorem joinOne_running {tid : Nat} {t : LoadTask}
    (h : (joinOne tid t).status = TStatus.running) :
    t.status = TStatus.running ∧ t.tid ≠ tid := by
  by_cases he : t.tid = tid
  · rw [joinOne, if_pos he] at h; simp at h
  · rw [joinOne, if_neg he] at h; exact ⟨h, he⟩

theorem endOne_tid (tid : Nat) (t : LoadTask) : (endOne tid t).tid = t.tid := by
  unfold endOne; split <;> rfl

theorem endOne_node (tid : Nat) (t : LoadTask) : (endOne tid t).node = t.node := by
  unfold endOne; split <;> rfl

theorem endOne_running {tid : Nat} {t : LoadTask}
    (h : (endOne tid t).status = TStatus.running) :
    t.status = TStatus.running ∧ t.tid ≠ tid := by
  by_cases he : t.tid = tid
  · rw [endOne, if_pos he] at h; simp at h
  · rw [endOne, if_neg he] at h; exact ⟨h, he⟩

theorem sweepOne_tid (reg : Nat → Option Nat) (t : LoadTask) :
    (sweepOne reg t).tid = t.tid := by
  unfold sweepOne; split <;> rfl

theorem sweepOne_running {reg : Nat → Option Nat} {t : LoadTask}
    (h : (sweepOne reg t).status = TStatus.running) :
    t.status = TStatus.running ∧ reg t.node ≠ some t.tid := by
  by_cases hc : reg t.node = some t.tid
  · rw [sweepOne, if_pos hc] at h; simp at h
  · rw [sweepOne, if_neg hc] at h; exact ⟨h, hc⟩

/-! Shape facts about `_cleanup_thread`. -/

theorem cleanup_thread_registry_self (s : TreeSt) (node : Nat) :
    (_cleanup_thread s node).registry node = none := by
  unfold _cleanup_thread
  cases hr : s.registry node with
  | none => exact hr
  | some tid => simp

theorem cleanup_thread_nextTid (s : TreeSt) (node : Nat) :
    (_cleanup_thread s node).nextTid = s.nextTid := by
  unfold _cleanup_thread
  cases hr : s.registry node with
  | none => rfl
  | some tid => rfl

theorem cleanup_thread_flags (s : TreeSt) (node : Nat) :
    (_cleanup_thread s node).flags = s.flags := by
  unfold _cleanup_thread
  cases hr : s.registry node with
  | none => rfl
  | some tid => rfl

/-! Invariant preservation, one lemma per source operation. -/

theorem treeInv_cleanup_thread (s : TreeSt) (node : Nat) (h : TreeInv s) :
    TreeInv (_cleanup_thread s node) := by
  obtain ⟨hreg, hbound, huniq, hvalid⟩ := h
  unfold _cleanup_thread
  cases hr : s.registry node with
  | none => exact ⟨hreg, hbound, huniq, hvalid⟩
  | some tid =>
    refine ⟨?_, ?_, ?_, ?_⟩
    · intro t' ht' hrun
      rcases List.mem_map.mp ht' with ⟨t, ht, rfl⟩
      obtain ⟨hrun0, hne⟩ := joinOne_running hrun
      have hmem := hreg t ht hrun0
      rw [joinOne_node, joinOne_tid]
      show (if t.node = node then none else s.registry t.node) = some t.tid
      by_cases hn : t.node = node
      · rw [hn, hr] at hmem
        injection hmem with hmem
        exact absurd hmem.symm hne
      · rw [if_neg hn]
        exact hmem
    · intro t' ht'
      rcases List.mem_map.mp ht' with ⟨t, ht, rfl⟩
      rw [joinOne_tid]
      exact hbound t ht
    · exact List.Pairwise.map _
        (fun a b hab => by rw [joinOne_tid, joinOne_tid]; exact hab) huniq
    · intro n tid' hsome
      show tid' < s.nextTid
      have hsome' : (if n = node then none else s.registry n) = some tid' := hsome
      by_cases hn : n = node
      · rw [if_pos hn] at hsome'
        cases hsome'
      · rw [if_neg hn] at hsome'
        exact hvalid n tid' hsome'

theorem treeInv_load_directory_async (s : TreeSt) (node : Nat) (h : TreeInv s) :
    TreeInv (_load_directory_async s node) := by
  have h1 := treeInv_cleanup_thread s node h
  obtain ⟨hreg, hbound, huniq, hvalid⟩ := h1
  unfold _load_directory_async
  by_cases hl : ((_cleanup_thread s node).flags node).loading = true
  · rw [if_pos hl]
    exact ⟨hreg, hbound, huniq, hvalid⟩
  · rw [if_neg hl]
    refine ⟨?_, ?_, ?_, ?_⟩
    · intro t ht hrun
      show (if t.node = node then some (_cleanup_thread s node).nextTid
            else (_cleanup_thread s node).registry t.node) = some t.tid
      rcases List.mem_append.mp ht with h2 | h2
      · have hmem := hreg t h2 hrun
        have hnn : t.node ≠ node := by
          intro he
          rw [he, cleanup_thread_registry_self] at hmem
          cases hmem
        rw [if_neg hnn]
        exact hmem
      · simp only [List.mem_singleton] at h2
        rw [h2]
        simp
    · intro t ht
      show t.tid < (_cleanup_thread s node).nextTid + 1
      rcases List.mem_append.mp ht with h2 | h2
      · exact Nat.lt_succ_of_lt (hbound t h2)
      · simp only [List.mem_singleton] at h2
        rw [h2]
        exact Nat.lt_succ_self _
    · show List.Pairwise _ ((_cleanup_thread s node).tasks ++ [_])
      rw [List.pairwise_append]
      refine ⟨huniq, List.pairwise_singleton _ _, ?_⟩
      intro a ha b hb
      simp only [List.mem_singleton] at hb
      rw [hb]
      exact Nat.ne_of_lt (hbound a ha)
    · intro n tid hsome
      show tid < (_cleanup_thread s node).nextTid + 1
      have hsome' : (if n = node then some (_cleanup_thread s node).nextTid
          else (_cleanup_thread s node).registry n) = some tid := hsome
      by_cases hn : n = node
      · rw [if_pos hn] at hsome'
        injection hsome' with hsome'
        omega
      · rw [if_neg hn] at hsome'
        exact Nat.lt_succ_of_lt (hvalid n tid hsome')

theorem treeInv_on_item_expanded (s : TreeSt) (node : Nat) (d : Bool) (h : TreeInv s) :
    TreeInv (on_item_expanded s node d) := by
  unfold on_item_expanded
  split
  · exact h
  · split
    · exact h
    · exact treeInv_load_directory_async s node h

theorem treeInv_task_run_ends (s : TreeSt) (tid : Nat) (em : Bool) (h : TreeInv s) :
    TreeInv (task_run_ends s tid em) := by
  obtain ⟨hreg, hbound, huniq, hvalid⟩ := h
  unfold task_run_ends
  cases hf : s.tasks.find? (fun t => t.tid = tid) with
  | none => exact ⟨hreg, hbound, huniq, hvalid⟩
  | some t =>
    have hinv1 : TreeInv { s with tasks := s.tasks.map (endOne tid) } := by
      refine ⟨?_, ?_, ?_, ?_⟩
      · intro t' ht' hrun
        rcases List.mem_map.mp ht' with ⟨t0, ht0, rfl⟩
        obtain ⟨hrun0, _⟩ := endOne_running hrun
        rw [endOne_node, endOne_tid]
        exact hreg t0 ht0 hrun0
      · intro t' ht'
        rcases List.mem_map.mp ht' with ⟨t0, ht0, rfl⟩
        rw [endOne_tid]
        exact hbound t0 ht0
      · exact List.Pairwise.map _
          (fun a b hab => by rw [endOne_tid, endOne_tid]; exact hab) huniq
      · exact hvalid
    show TreeInv
      (if em = true ∧ s.registry t.node = some tid then
        _cleanup_thread
          { tasks := s.tasks.map (endOne tid), registry := s.registry,
            flags := fun n => if n = t.node then { loading := false, loaded := true }
                              else s.flags n,
            nextTid := s.nextTid } t.node
       else { s with tasks := s.tasks.map (endOne tid) })
    by_cases hcond : em = true ∧ s.registry t.node = some tid
    · rw [if_pos hcond]
      apply treeInv_cleanup_thread
      exact hinv1
    · rw [if_neg hcond]
      exact hinv1

theorem treeInv_cleanup_threads (s : TreeSt) (h : TreeInv s) :
    TreeInv (_cleanup_threads s) := by
  obtain ⟨hreg, hbound, huniq, hvalid⟩ := h
  refine ⟨?_, ?_, ?_, ?_⟩
  · intro t' ht' hrun
    rcases List.mem_map.mp ht' with ⟨t, ht, rfl⟩
    obtain ⟨hrun0, hne⟩ := sweepOne_running hrun
    exact absurd (hreg t ht hrun0) hne
  · intro t' ht'
    rcases List.mem_map.mp ht' with ⟨t, ht, rfl⟩
    rw [sweepOne_tid]
    exact hbound t ht
  · exact List.Pairwise.map _
      (fun a b hab => by rw [sweepOne_tid, sweepOne_tid]; exact hab) huniq
  · intro n tid hsome
    cases hsome

theorem treeInv_reachable {s : TreeSt} (h : TreeReachable s) : TreeInv s := by
  induction h with
  | init =>
    refine ⟨?_, ?_, ?_, ?_⟩
    · intro t ht; cases ht
    · intro t ht; cases ht
    · exact List.Pairwise.nil
    · intro n tid hsome; cases hsome
  | step ev _ ih =>
    cases ev with
    | expand node d => exact treeInv_on_item_expanded _ node d ih
    | loadAsync node => exact treeInv_load_directory_async _ node ih
    | runEnds tid em => exact treeInv_task_run_ends _ tid em ih
    | cleanupNode node => exact treeInv_cleanup_thread _ node ih
    | cleanupAll => exact treeInv_cleanup_threads _ ih

theorem pairwise_tid_eq {l : List LoadTask}
    (hp : List.Pairwise (fun a b => a.tid ≠ b.tid) l)
    {t1 t2 : LoadTask} (h1 : t1 ∈ l) (h2 : t2 ∈ l) (he : t1.tid = t2.tid) : t1 = t2 := by
  by_contra hne
  exact List.Pairwise.forall (fun a b hab => hab.symm) hp h1 h2 hne he

/-- C2: at most one active task per target.  In every reachable widget
state: (1) any two running `DirectoryLoader` tasks for the same tree node
are the same task; (2) an expansion request (`on_item_expanded`) for a node
that is already loading or already loaded is a no-op and starts nothing;
(3) when `_load_directory_async` runs for a node that has a registered
task, that task comes out of the call interrupted and with its background
execution finished (`_cleanup_thread`'s `interrupt` + `thread.wait`) —
whether or not a replacement task is then started, the old task's
resources are released first. -/
theorem c2_at_most_one_active_task (s : TreeSt) (h : TreeReachable s) :
    (∀ t1 ∈ s.tasks, ∀ t2 ∈ s.tasks,
      t1.status = TStatus.running → t2.status = TStatus.running →
      t1.node = t2.node → t1 = t2)
    ∧ (∀ (node : Nat) (d : Bool),
        (s.flags node).loading = true ∨ (s.flags node).loaded = true →
        on_item_expanded s node d = s)
    ∧ (∀ (node tid : Nat), s.registry node = some tid →
        ∀ t ∈ (_load_directory_async s node).tasks, t.tid = tid →
          t.interrupted = true ∧ t.status = TStatus.finished) := by
  obtain ⟨hreg, hbound, huniq, hvalid⟩ := treeInv_reachable h
  refine ⟨?_, ?_, ?_⟩
  · intro t1 h1 t2 h2 hr1 hr2 hnode
    have e1 := hreg t1 h1 hr1
    have e2 := hreg t2 h2 hr2
    rw [hnode] at e1
    rw [e2] at e1
    injection e1 with e1
    exact pairwise_tid_eq huniq h1 h2 e1.symm
  · intro node d hflag
    unfold on_item_expanded
    cases d with
    | false => rfl
    | true =>
      have hc : ((s.flags node).loaded || (s.flags node).loading) = true := by
        rcases hflag with h1 | h1 <;> simp [h1]
      rw [if_neg (by simp), if_pos hc]
  · intro node tid hsome t ht htid
    have hjoined : ∀ t0 ∈ (_cleanup_thread s node).tasks, t0.tid = tid →
        t0.interrupted = true ∧ t0.status = TStatus.finished := by
      intro t0 ht0 htid0
      unfold _cleanup_thread at ht0
      rw [hsome] at ht0
      rcases List.mem_map.mp ht0 with ⟨t1, _, rfl⟩
      rw [joinOne_tid] at htid0
      rw [joinOne, if_pos htid0]
      exact ⟨rfl, rfl⟩
    unfold _load_directory_async at ht
    by_cases hl : ((_cleanup_thread s node).flags node).loading = true
    · rw [if_pos hl] at ht
      exact hjoined t ht htid
    · rw [if_neg hl] at ht
      rcases List.mem_append.mp ht with h2 | h2
      · exact hjoined t h2 htid
      · simp only [List.mem_singleton] at h2
        rw [h2] at htid
        have : tid < (_cleanup_thread s node).nextTid := by
          rw [cleanup_thread_nextTid]
          exact hvalid node tid hsome
        simp only at htid
        omega

/-- Witness for C2 at a concrete reachable state: after starting a load for
node 0 from the initial state, a second expansion request for node 0 (now
marked loading) changes nothing. -/
theorem c2_at_most_one_active_task_witness :
    on_item_expanded (treeStep initTree (TreeEvent.loadAsync 0)) 0 true
      = treeStep initTree (TreeEvent.loadAsync 0) :=
  (c2_at_most_one_active_task _
      (TreeReachable.step (TreeEvent.loadAsync 0) TreeReachable.init)).2.1
    0 true (Or.inl (by decide))

end SSDTree
